import Mathlib

/-!
Verification of the fjord feedback application's utility helpers
(`fjord/base/util.py`) and of its chunked asynchronous indexing pipeline.
The utility helpers are embedded directly from `fjord/base/util.py`.
The indexing pipeline's implementation modules (`fjord/search/tasks.py`,
`fjord/search/models.py`, `fjord/search/index.py`) are not part of the
source excerpt — only their test (`fjord/search/tests/test_tasks.py`) is —
so the pipeline is modelled from the specification.
-/

namespace Fjord

/-! ### Embedding of `fjord/base/util.py` -/

/-- Embeds Python's `s.rsplit(' ', 1)[0]` helper behaviour used by
`smart_truncate`: returns `some p` where `p` is everything strictly before
the last space of `s`, or `none` when `s` contains no space. -/
def beforeLastSpace : List Char → Option (List Char)
  | [] => none
  | c :: cs =>
    match beforeLastSpace cs with
    | some p => some (c :: p)
    | none => if c = ' ' then some [] else none

/-- `s.rsplit(' ', 1)[0]` from Python: the part of `s` before its last
space, or `s` itself when it has no space. -/
def rsplitSpaceFirst (s : List Char) : List Char :=
  (beforeLastSpace s).getD s

/-- Embedding of `smart_truncate` from `fjord/base/util.py`:
`content` unchanged when it fits in `length`; otherwise the first `length`
characters, cut back to before their last space, with `suffix` appended. -/
def smart_truncate (content : List Char) (length : Nat) (suffix : List Char) :
    List Char :=
  if content.length ≤ length then content
  else rsplitSpaceFirst (content.take length) ++ suffix

/-- ASCII lowercasing of one character, embedding Python's `str.lower`
restricted to the ASCII range (all strings `smart_bool` compares against
are ASCII). -/
def asciiLower (c : Char) : Char :=
  if 'A' ≤ c ∧ c ≤ 'Z' then Char.ofNat (c.toNat + 32) else c

/-- A Python (CPython 2.7) float value, i.e. an IEEE-754 binary64 double:
a finite double is the exact value `m * 2 ^ e` of its significand and
exponent (the conversions below keep `|m| < 2 ^ 53` and
`e ≥ -1074`), plus the infinities and NaN. -/
inductive PyFloat where
  | finite (m : Int) (e : Int)
  | inf
  | neginf
  | nan
deriving DecidableEq

/-- A Python runtime value, as far as the coercion helpers of
`fjord/base/util.py` can observe one: a string, an int, a float, a bool,
or `None`.  Only strings have a `lower` method. -/
inductive PyVal where
  | str (s : List Char)
  | int (n : Int)
  | float (f : PyFloat)
  | bool (b : Bool)
  | none
deriving DecidableEq

/-- The strings whose lowercasing `smart_bool` maps to `True`. -/
def trueStrings : List (List Char) :=
  ["true".toList, "t".toList, "yes".toList, "y".toList, "1".toList]

/-- The strings whose lowercasing `smart_bool` maps to `False`. -/
def falseStrings : List (List Char) :=
  ["false".toList, "f".toList, "no".toList, "n".toList, "0".toList]

/-- Embedding of `smart_bool` from `fjord/base/util.py`.  A non-string
input lacks the `lower` method; the resulting `AttributeError` is caught
and the fallback returned, which the `match` on the constructor models. -/
def smart_bool (s fallback : PyVal) : PyVal :=
  match s with
  | .str t =>
    let l := t.map asciiLower
    if l ∈ trueStrings then .bool true
    else if l ∈ falseStrings then .bool false
    else fallback
  | _ => fallback

/-- Splits `l` at the first occurrence of `c`, returning the parts before
and after it, or `none` when `c` does not occur. -/
def splitOnFirst (c : Char) (l : List Char) : Option (List Char × List Char) :=
  match l.dropWhile (fun x => x ≠ c) with
  | [] => none
  | _ :: post => some (l.takeWhile (fun x => x ≠ c), post)

/-- The numeric value of a nonempty all-digit string, `none` otherwise. -/
def digitsVal? (l : List Char) : Option Nat :=
  if l ≠ [] ∧ l.all Char.isDigit then
    some (l.foldl (fun a c => a * 10 + (c.toNat - 48)) 0)
  else Option.none

/-- Parses the mantissa of a float literal into a numerator/denominator
pair: plain digits, or digits with a single decimal point where at least
one side is nonempty (Python accepts `"3."` and `".5"`). -/
def parseMantissa (l : List Char) : Option (Nat × Nat) :=
  match splitOnFirst '.' l with
  | Option.none => (digitsVal? l).map (fun n => (n, 1))
  | some (ip, fp) =>
    if ip.all Char.isDigit ∧ fp.all Char.isDigit ∧ (ip ≠ [] ∨ fp ≠ []) then
      some ((ip ++ fp).foldl (fun a c => a * 10 + (c.toNat - 48)) 0,
        10 ^ fp.length)
    else Option.none

/-- Parses an optionally signed all-digit exponent. -/
def parseExp (l : List Char) : Option Int :=
  match l with
  | '+' :: rest => (digitsVal? rest).map Int.ofNat
  | '-' :: rest => (digitsVal? rest).map (fun n => -(n : Int))
  | rest => (digitsVal? rest).map Int.ofNat

/-- Negation on doubles. -/
def pyFloatNeg : PyFloat → PyFloat
  | .finite m e => .finite (-m) e
  | .inf => .neginf
  | .neginf => .inf
  | .nan => .nan

/-- Scales a positive-rational pair by a power-of-ten exponent, keeping
the value exact. -/
def applyExp (m : Nat × Nat) (ex : Int) : Nat × Nat :=
  if 0 ≤ ex then (m.1 * 10 ^ ex.natAbs, m.2)
  else (m.1, m.2 * 10 ^ ex.natAbs)

/-- Fuel-driven floor of the base-2 logarithm (the fuel only bounds the
halving recursion; any fuel at least `log2 n` gives the exact value). -/
def floorLog2Aux : Nat → Nat → Nat
  | 0, _ => 0
  | fuel + 1, n => if n ≤ 1 then 0 else floorLog2Aux fuel (n / 2) + 1

/-- Floor of the base-2 logarithm of a positive natural. -/
def floorLog2 (n : Nat) : Nat :=
  floorLog2Aux n n

/-- The unique `k` with `2 ^ k ≤ n / d < 2 ^ (k + 1)` for positive `n`
and `d`, i.e. the binary exponent of the rational `n / d`. -/
def ratExp (n d : Nat) : Int :=
  if d ≤ n then Int.ofNat (floorLog2 (n / d))
  else
    let m0 := floorLog2 (d / n)
    if d ≤ n * 2 ^ m0 then -(Int.ofNat m0) else -(Int.ofNat (m0 + 1))

/-- `N / D` rounded to the nearest integer, ties to even — the rounding
CPython's correctly-rounded string-to-double conversion uses. -/
def roundHalfEven (N D : Nat) : Nat :=
  let a := N / D
  let r := N % D
  if 2 * r < D then a
  else if D < 2 * r then a + 1
  else if a % 2 = 0 then a else a + 1

/-- The IEEE-754 binary64 double nearest to the positive rational
`n / d` (ties to even): significand and exponent are found from the
binary exponent of the value, subnormals bottom out at exponent `-1074`,
and a value at or beyond `2 ^ 1024` overflows to `inf`. -/
def roundPosRatToDouble (n d : Nat) : PyFloat :=
  if n = 0 then .finite 0 0
  else
    let k := ratExp n d
    let t : Int := if k < -1022 then -1074 else k - 52
    let s := if 0 ≤ t then roundHalfEven n (d * 2 ^ t.toNat)
      else roundHalfEven (n * 2 ^ (-t).toNat) d
    let s' := if s = 2 ^ 53 then 2 ^ 52 else s
    let t' := if s = 2 ^ 53 then t + 1 else t
    if 0 ≤ t' ∧ 2 ^ 1024 ≤ s' * 2 ^ t'.toNat then PyFloat.inf
    else PyFloat.finite s' t'

/-- The characters Python's `float(str)` strips around the literal. -/
def isPySpace (c : Char) : Bool :=
  c == ' ' || c == '\t' || c == '\n' || c == '\r' || c == '\x0b' || c == '\x0c'

/-- Parses an unsigned float literal body: `inf`, `infinity`, `nan`, or a
mantissa with an optional `e`-exponent, rounded to the nearest double
(an over-range literal reads as `inf`, as in CPython's `float('1e400')`). -/
def parseUnsigned (l : List Char) : Option PyFloat :=
  if l = "inf".toList ∨ l = "infinity".toList then some PyFloat.inf
  else if l = "nan".toList then some PyFloat.nan
  else
    match splitOnFirst 'e' l with
    | Option.none =>
      (parseMantissa l).map (fun m => roundPosRatToDouble m.1 m.2)
    | some (m, e) =>
      match parseMantissa m, parseExp e with
      | some q, some ex =>
        some (roundPosRatToDouble (applyExp q ex).1 (applyExp q ex).2)
      | _, _ => Option.none

/-- Embedding of Python's `float(str)`: strips surrounding whitespace,
lowercases, handles an optional sign, then parses the body to the
nearest double.  `none` models the `ValueError` a non-numeric string
raises. -/
def parsePyFloat (s : List Char) : Option PyFloat :=
  let t := ((s.dropWhile isPySpace).reverse.dropWhile isPySpace).reverse
  match t.map asciiLower with
  | '+' :: rest => parseUnsigned rest
  | '-' :: rest => (parseUnsigned rest).map pyFloatNeg
  | rest => parseUnsigned rest

/-- Embedding of Python's `float(s)` applied to an arbitrary value:
strings parse to the nearest double, an int converts to the nearest
double — raising `OverflowError` (modelled by `none`) when it is too
large to convert — bools convert exactly, and `None` raises
`TypeError`. -/
def pyFloat (v : PyVal) : Option PyFloat :=
  match v with
  | .str s => parsePyFloat s
  | .int n =>
    if n = 0 then some (.finite 0 0)
    else
      match roundPosRatToDouble n.natAbs 1 with
      | .inf => Option.none
      | f => some (if n < 0 then pyFloatNeg f else f)
  | .float f => some f
  | .bool b => some (.finite (if b then 1 else 0) 0)
  | .none => Option.none

/-- Truncation of the finite double `m * 2 ^ e` toward zero, the
behaviour of Python's `int(float)` on finite doubles. -/
def truncDouble (m e : Int) : Int :=
  if 0 ≤ e then m * 2 ^ e.toNat
  else if 0 ≤ m then ((m.natAbs / 2 ^ (-e).toNat : Nat) : Int)
  else -((m.natAbs / 2 ^ (-e).toNat : Nat) : Int)

/-- Embedding of Python's `int(f)` on a double: truncates a finite value
toward zero; `int(inf)` raises `OverflowError` and `int(nan)` raises
`ValueError`, both modelled by `none`. -/
def truncFloat : PyFloat → Option Int
  | .finite m e => some (truncDouble m e)
  | _ => Option.none

/-- Embedding of `smart_int` from `fjord/base/util.py`: `int(float(s))`
with `ValueError`, `TypeError` and `OverflowError` all caught and mapped
to the fallback. -/
def smart_int (s fallback : PyVal) : PyVal :=
  match pyFloat s with
  | some f =>
    match truncFloat f with
    | some n => .int n
    | Option.none => fallback
  | Option.none => fallback

/-! ### Model of the indexing pipeline

The implementation modules `fjord/search/models.py` (the `Record` status
row), `fjord/search/tasks.py` (`index_chunk_task`), `fjord/search/index.py`
(chunker, index access, lifecycle) are not in the source excerpt; the
definitions below are modelled from the specification. -/

/-- Modelled from the spec: the status enum of a `Record` row from the
missing `fjord/search/models.py` (`STATUS_PENDING` / `STATUS_SUCCESS` /
`STATUS_FAILURE`). -/
inductive Status where
  | pending
  | success
  | failure
deriving DecidableEq

/-- Modelled from the spec: a domain object of the feedback app (the
missing `fjord/feedback/models.py` response model), reduced to its stable
identifier and its indexable payload. -/
structure Obj where
  id : Nat
  body : String
deriving DecidableEq

/-- Modelled from the spec: an index document, carrying the id under which
the engine stores it and its payload. -/
structure DocT where
  id : Nat
  body : String
deriving DecidableEq

/-- Modelled from the spec: `mapping_type.to_document(object)`, the
document-extraction capability of the missing mapping type — the document
is keyed by the domain object's stable identifier. -/
def to_document (o : Obj) : Nat × DocT :=
  (o.id, ⟨o.id, o.body⟩)

/-- Modelled from the spec: `mapping_type.fetch(ids) -> objects` of the
missing mapping type — ids that no longer resolve to a live object are
silently omitted. -/
def fetch (domain : List Obj) (ids : List Nat) : List Obj :=
  ids.filterMap (fun i => domain.find? (fun o => o.id == i))

/-- Whether an id still resolves to a live domain object. -/
def isLive (domain : List Obj) (i : Nat) : Bool :=
  (domain.find? (fun o => o.id == i)).isSome

/-- An index: the documents the engine holds for one index name, keyed by
document id. -/
abbrev Index : Type := List (Nat × DocT)

/-- The keys (document ids) of an index. -/
def keysOf (idx : Index) : List Nat :=
  idx.map Prod.fst

/-- Modelled from the spec: an id-keyed overwrite-safe write into an
index — the engine replaces the document already stored under the same
id, otherwise appends. -/
def upsert (idx : Index) (d : Nat × DocT) : Index :=
  match idx with
  | [] => [d]
  | p :: rest => if p.1 == d.1 then d :: rest else p :: upsert rest d

/-- Modelled from the spec: the record store rows, `record_id → status`. -/
abbrev Records : Type := List (Nat × Status)

/-- Modelled from the spec: `mark_success` / `mark_failure` of the missing
`Record` model — a row-level update of one record's status. -/
def markRecord (recs : Records) (rid : Nat) (st : Status) : Records :=
  recs.map (fun p => if p.1 == rid then (rid, st) else p)

/-- Modelled from the spec: `get(record_id) -> status` of the record
store. -/
def recordStatus (recs : Records) (rid : Nat) : Option Status :=
  (recs.find? (fun p => p.1 == rid)).map Prod.snd

/-- Modelled from the spec: the search engine's state — named indexes
plus the alias table of the lifecycle manager. -/
structure Engine where
  indexes : List (String × Index)
  aliases : List (String × String)

/-- The documents the engine holds under an index name (an absent index
reads as empty). -/
def getIndex (e : Engine) (name : String) : Index :=
  ((e.indexes.find? (fun p => p.1 == name)).map Prod.snd).getD []

/-- Replaces (or creates) the index stored under a name. -/
def putIndex : List (String × Index) → String → Index → List (String × Index)
  | [], n, i => [(n, i)]
  | p :: rest, n, i => if p.1 == n then (n, i) :: rest else p :: putIndex rest n i

/-- Engine with one index overwritten; aliases untouched. -/
def setIndex (e : Engine) (name : String) (idx : Index) : Engine :=
  { e with indexes := putIndex e.indexes name idx }

/-- Modelled from the spec: the bulk write of the Index Writer — writes
the accepted documents of a chunk into the named index in one round trip
and reports how many documents the engine rejected (per-document partial
success reporting). -/
def bulk_write (reject : DocT → Bool) (e : Engine) (name : String)
    (docs : List (Nat × DocT)) : Engine × Nat :=
  (setIndex e name ((docs.filter (fun d => !reject d.2)).foldl upsert
      (getIndex e name)),
    (docs.filter (fun d => reject d.2)).length)

/-- Modelled from the spec: `index_chunk_task` from the missing
`fjord/search/tasks.py` — the asynchronous unit of work for one chunk.
It fetches the chunk's live objects, converts them to documents, bulk
writes them, and then sets the referenced record to SUCCESS, or to
FAILURE when the bulk write reported any rejected document. -/
def index_chunk_task (reject : DocT → Bool) (domain : List Obj)
    (indexName batchId : String) (recordId : Nat) (ids : List Nat)
    (e : Engine) (recs : Records) : Engine × Records :=
  ((bulk_write reject e indexName ((fetch domain ids).map to_document)).1,
    markRecord recs recordId
      (if (bulk_write reject e indexName ((fetch domain ids).map to_document)).2 == 0
        then .success else .failure))

/-- Number of documents queryable in the named index. -/
def searchCount (e : Engine) (name : String) : Nat :=
  (getIndex e name).length

/-- How many documents the named index holds under one document id. -/
def countKey (i : Nat) (idx : Index) : Nat :=
  (keysOf idx).count i

/-- Modelled from the spec: the Chunker from the missing
`fjord/search/index.py` — splits the ordered item ids into contiguous
chunks of at most `k` items; empty input produces zero chunks. -/
def chunked (k : Nat) (xs : List Nat) : List (List Nat) :=
  if h : k = 0 ∨ xs = [] then []
  else
    have : 0 < k := Nat.pos_of_ne_zero (fun hk => h (Or.inl hk))
    have : xs.length - k < xs.length :=
      Nat.sub_lt (List.length_pos.2 (fun hx => h (Or.inr hx))) this
    xs.take k :: chunked k (xs.drop k)
termination_by xs.length
decreasing_by simpa using this

/-- Modelled from the spec: the outcome of the build step of the Index
Lifecycle Manager's build-and-swap reindex — creation can fail outright,
population can fail leaving a partially built document set, or the build
completes with the full document set. -/
inductive BuildResult where
  | createFailed
  | populateFailed (docsSoFar : Index)
  | built (docs : Index)

/-- The index name the alias currently resolves to. -/
def aliasFor (e : Engine) (a : String) : Option String :=
  (e.aliases.find? (fun p => p.1 == a)).map Prod.snd

/-- Repoints (or creates) an alias. -/
def putAlias : List (String × String) → String → String → List (String × String)
  | [], a, t => [(a, t)]
  | p :: rest, a, t => if p.1 == a then (a, t) :: rest else p :: putAlias rest a t

/-- Drops an index from the engine. -/
def removeIndex (e : Engine) (name : String) : Engine :=
  { e with indexes := e.indexes.filter (fun p => p.1 != name) }

/-- Modelled from the spec: the Index Lifecycle Manager's build-and-swap
reindex from the missing `fjord/search/index.py` — on a completed build
the alias is atomically repointed to the new generation and the old one
removed; a failure during creation or population leaves the alias table
untouched. -/
def build_and_swap (e : Engine) (aliasName newIndex : String)
    (r : BuildResult) : Engine :=
  match r with
  | .createFailed => e
  | .populateFailed p => setIndex e newIndex p
  | .built docs =>
    let e1 := setIndex e newIndex docs
    let e2 := match aliasFor e aliasName with
      | some old => removeIndex e1 old
      | Option.none => e1
    { e2 with aliases := putAlias e2.aliases aliasName newIndex }

/-! ### Lemmas about the index write path -/

theorem keysOf_upsert (idx : Index) (d : Nat × DocT) :
    keysOf (upsert idx d) =
      if d.1 ∈ keysOf idx then keysOf idx else keysOf idx ++ [d.1] := by
  induction idx with
  | nil => simp [upsert, keysOf]
  | cons p rest ih =>
    by_cases hp : p.1 = d.1
    · simp [upsert, keysOf, hp]
    · have hne : (p.1 == d.1) = false := by simp [hp]
      have h1 : keysOf (upsert (p :: rest) d) = p.1 :: keysOf (upsert rest d) := by
        simp [upsert, hne, keysOf]
      have h2 : keysOf (p :: rest) = p.1 :: keysOf rest := by simp [keysOf]
      rw [h1, h2, ih]
      by_cases hm : d.1 ∈ keysOf rest
      · simp [hm, Ne.symm hp]
      · simp [hm, Ne.symm hp]

theorem nodup_keysOf_upsert (idx : Index) (d : Nat × DocT)
    (h : (keysOf idx).Nodup) : (keysOf (upsert idx d)).Nodup := by
  rw [keysOf_upsert]
  by_cases hm : d.1 ∈ keysOf idx
  · simpa [hm] using h
  · simpa [hm] using List.Nodup.append h (List.nodup_singleton _)
      (by simpa [List.disjoint_singleton] using hm)

theorem mem_keysOf_upsert (idx : Index) (d : Nat × DocT) (i : Nat) :
    i ∈ keysOf (upsert idx d) ↔ i ∈ keysOf idx ∨ i = d.1 := by
  rw [keysOf_upsert]
  by_cases hm : d.1 ∈ keysOf idx
  · simp only [hm, if_true]
    constructor
    · exact Or.inl
    · rintro (h | rfl) <;> [exact h; exact hm]
  · simp [hm]

theorem mem_keysOf_foldl_upsert (ds : List (Nat × DocT)) (idx : Index) (i : Nat) :
    i ∈ keysOf (ds.foldl upsert idx) ↔ i ∈ keysOf idx ∨ i ∈ ds.map Prod.fst := by
  induction ds generalizing idx with
  | nil => simp
  | cons d ds ih =>
    rw [List.foldl_cons, ih, mem_keysOf_upsert]
    simp only [List.map_cons, List.mem_cons]
    tauto

theorem nodup_keysOf_foldl_upsert (ds : List (Nat × DocT)) (idx : Index)
    (h : (keysOf idx).Nodup) : (keysOf (ds.foldl upsert idx)).Nodup := by
  induction ds generalizing idx with
  | nil => exact h
  | cons d ds ih => exact ih _ (nodup_keysOf_upsert _ _ h)

theorem keysOf_foldl_upsert_disjoint (ds : List (Nat × DocT)) (idx : Index)
    (hnd : (ds.map Prod.fst).Nodup)
    (hdisj : ∀ i ∈ ds.map Prod.fst, i ∉ keysOf idx) :
    keysOf (ds.foldl upsert idx) = keysOf idx ++ ds.map Prod.fst := by
  induction ds generalizing idx with
  | nil => simp
  | cons d ds ih =>
    rw [List.foldl_cons]
    have hd : d.1 ∉ keysOf idx := hdisj d.1 (by simp)
    have hup : keysOf (upsert idx d) = keysOf idx ++ [d.1] := by
      rw [keysOf_upsert]; simp [hd]
    have hnd' : (ds.map Prod.fst).Nodup := (List.nodup_cons.1 (by simpa using hnd)).2
    have hdm : d.1 ∉ ds.map Prod.fst := (List.nodup_cons.1 (by simpa using hnd)).1
    rw [ih (upsert idx d) hnd' ?_, hup]
    · simp
    · intro i hi
      rw [hup]
      simp only [List.mem_append, List.mem_singleton]
      rintro (h | rfl)
      · exact hdisj i (by simp [hi]) h
      · exact hdm hi

theorem length_eq_length_keysOf (idx : Index) : idx.length = (keysOf idx).length := by
  simp [keysOf]

/-! ### Lemmas about fetch, records, index access and the chunker -/

theorem fetch_map_id (domain : List Obj) (ids : List Nat) :
    (fetch domain ids).map Obj.id = ids.filter (isLive domain) := by
  induction ids with
  | nil => simp [fetch]
  | cons i rest ih =>
    rw [fetch, List.filterMap_cons]
    cases hf : domain.find? (fun o => o.id == i) with
    | none =>
      have hl : isLive domain i = false := by simp [isLive, hf]
      simpa [List.filter_cons, hl, fetch] using ih
    | some o =>
      have ho : o.id = i := by
        have := List.find?_some hf
        simpa using this
      have hl : isLive domain i = true := by simp [isLive, hf]
      simpa [List.filter_cons, hl, fetch, ho] using ih

theorem find?_id_cons_ne (o : Obj) (rest : List Obj) (i : Nat) (h : o.id ≠ i) :
    (o :: rest).find? (fun x => x.id == i) = rest.find? (fun x => x.id == i) := by
  simp [List.find?_cons, h]

theorem fetch_cons_notMem (o : Obj) (rest : List Obj) (ids : List Nat)
    (h : o.id ∉ ids) : fetch (o :: rest) ids = fetch rest ids := by
  induction ids with
  | nil => simp [fetch]
  | cons i is ih =>
    have hne : o.id ≠ i := fun he => h (he ▸ List.mem_cons_self i is)
    have hrec := ih (fun hm => h (List.mem_cons_of_mem _ hm))
    rw [fetch, List.filterMap_cons, find?_id_cons_ne o rest i hne]
    cases hf : rest.find? (fun x => x.id == i) <;>
      simpa [hf, fetch] using hrec

theorem fetch_all (domain : List Obj) (hnd : (domain.map Obj.id).Nodup) :
    fetch domain (domain.map Obj.id) = domain := by
  induction domain with
  | nil => simp [fetch]
  | cons o rest ih =>
    have hnd' : (rest.map Obj.id).Nodup := (List.nodup_cons.1 (by simpa using hnd)).2
    have hno : o.id ∉ rest.map Obj.id := (List.nodup_cons.1 (by simpa using hnd)).1
    rw [List.map_cons, fetch, List.filterMap_cons]
    have hf : (o :: rest).find? (fun x => x.id == o.id) = some o := by
      simp [List.find?_cons]
    rw [hf]
    have : List.filterMap (fun i => (o :: rest).find? (fun x => x.id == i))
        (rest.map Obj.id) = fetch (o :: rest) (rest.map Obj.id) := rfl
    rw [this, fetch_cons_notMem o rest _ hno, ih hnd']

theorem recordStatus_markRecord (recs : Records) (rid : Nat) (st : Status)
    (s0 : Status) (h : recordStatus recs rid = some s0) :
    recordStatus (markRecord recs rid st) rid = some st := by
  induction recs with
  | nil => simp [recordStatus] at h
  | cons p rest ih =>
    by_cases hp : p.1 = rid
    · simp [recordStatus, markRecord, List.find?_cons, hp]
    · have hne : (p.1 == rid) = false := by simp [hp]
      have hmk : markRecord (p :: rest) rid st = p :: markRecord rest rid st := by
        simp [markRecord, hp]
      have h' : recordStatus rest rid = some s0 := by
        simpa [recordStatus, List.find?_cons, hne] using h
      rw [hmk]
      have hstep : recordStatus (p :: markRecord rest rid st) rid =
          recordStatus (markRecord rest rid st) rid := by
        simp [recordStatus, List.find?_cons, hne]
      rw [hstep]
      exact ih h'

theorem find?_putIndex (l : List (String × Index)) (name : String) (idx : Index) :
    (putIndex l name idx).find? (fun p => p.1 == name) = some (name, idx) := by
  induction l with
  | nil => simp [putIndex, List.find?_cons]
  | cons p rest ih =>
    by_cases hp : p.1 = name
    · simp [putIndex, hp, List.find?_cons]
    · have hne : (p.1 == name) = false := by simp [hp]
      simpa [putIndex, hne, List.find?_cons] using ih

theorem getIndex_setIndex (e : Engine) (name : String) (idx : Index) :
    getIndex (setIndex e name idx) name = idx := by
  simp [getIndex, setIndex, find?_putIndex]

theorem aliasFor_setIndex (e : Engine) (a name : String) (idx : Index) :
    aliasFor (setIndex e name idx) a = aliasFor e a := rfl

theorem keysOf_map_to_document (objs : List Obj) :
    (objs.map to_document).map Prod.fst = objs.map Obj.id := by
  induction objs with
  | nil => rfl
  | cons o rest ih => simp [to_document, ih]

theorem chunked_nil (k : Nat) : chunked k [] = [] := by
  rw [chunked]
  simp

theorem chunked_of_length_le (k : Nat) (xs : List Nat) (hk : 0 < k)
    (hne : xs ≠ []) (hle : xs.length ≤ k) : chunked k xs = [xs] := by
  rw [chunked]
  have : ¬(k = 0 ∨ xs = []) := by
    rintro (h | h)
    · exact absurd h (Nat.pos_iff_ne_zero.1 hk)
    · exact hne h
  rw [dif_neg this, List.take_of_length_le hle, List.drop_eq_nil_of_le hle,
    chunked_nil]

theorem chunked_flatten (k : Nat) (hk : 0 < k) (xs : List Nat) :
    (chunked k xs).flatten = xs := by
  obtain ⟨n, hn⟩ : ∃ n, xs.length = n := ⟨_, rfl⟩
  induction n using Nat.strong_induction_on generalizing xs with
  | _ n ih =>
    by_cases hx : xs = []
    · subst hx; simp [chunked_nil]
    · rw [chunked]
      have hcond : ¬(k = 0 ∨ xs = []) := by
        rintro (h | h)
        · exact absurd h (Nat.pos_iff_ne_zero.1 hk)
        · exact hx h
      rw [dif_neg hcond]
      have hlt : (xs.drop k).length < n := by
        rw [List.length_drop, ← hn]
        exact Nat.sub_lt (List.length_pos.2 hx) hk
      rw [List.flatten_cons, ih _ hlt (xs.drop k) rfl, List.take_append_drop]

theorem chunked_sizes (k : Nat) (xs : List Nat) :
    ∀ c ∈ chunked k xs, c.length ≤ k := by
  obtain ⟨n, hn⟩ : ∃ n, xs.length = n := ⟨_, rfl⟩
  induction n using Nat.strong_induction_on generalizing xs with
  | _ n ih =>
    intro c hc
    rw [chunked] at hc
    by_cases hcond : k = 0 ∨ xs = []
    · rw [dif_pos hcond] at hc
      simp at hc
    · rw [dif_neg hcond] at hc
      have hk : 0 < k := Nat.pos_of_ne_zero (fun h => hcond (Or.inl h))
      have hx : xs ≠ [] := fun h => hcond (Or.inr h)
      have hlt : (xs.drop k).length < n := by
        rw [List.length_drop, ← hn]
        exact Nat.sub_lt (List.length_pos.2 hx) hk
      rcases List.mem_cons.1 hc with rfl | hmem
      · simpa using Nat.min_le_left k xs.length
      · exact ih _ hlt (xs.drop k) rfl c hmem

theorem chunked_count (k : Nat) (hk : 0 < k) (xs : List Nat) :
    (chunked k xs).length = (xs.length + k - 1) / k := by
  obtain ⟨n, hn⟩ : ∃ n, xs.length = n := ⟨_, rfl⟩
  induction n using Nat.strong_induction_on generalizing xs with
  | _ n ih =>
    by_cases hx : xs = []
    · subst hx
      simp only [chunked_nil, List.length_nil]
      have : k - 1 < k := Nat.sub_lt hk Nat.one_pos
      simp [Nat.div_eq_of_lt this]
    · rw [chunked]
      have hcond : ¬(k = 0 ∨ xs = []) := by
        rintro (h | h)
        · exact absurd h (Nat.pos_iff_ne_zero.1 hk)
        · exact hx h
      rw [dif_neg hcond]
      have hpos : 0 < xs.length := List.length_pos.2 hx
      have hlt : (xs.drop k).length < n := by
        rw [List.length_drop, ← hn]
        exact Nat.sub_lt hpos hk
      rw [List.length_cons, ih _ hlt (xs.drop k) rfl, List.length_drop]
      rcases Nat.le_total xs.length k with hle | hle
      · have h2 : (xs.length - k + k - 1) / k = 0 := by
          apply Nat.div_eq_of_lt; omega
        have h3 : (xs.length + k - 1) / k = 1 := by
          apply Nat.div_eq_of_lt_le <;> omega
        omega
      · have h1 : xs.length - k + k - 1 = xs.length - 1 := by omega
        have h2 : xs.length + k - 1 = (xs.length - 1) + k := by omega
        rw [h1, h2, Nat.add_div_right _ hk]

/-! ### Lemmas about the last-space split of smart_truncate -/

theorem beforeLastSpace_eq_none (s : List Char) :
    beforeLastSpace s = Option.none ↔ ' ' ∉ s := by
  induction s with
  | nil => simp [beforeLastSpace]
  | cons c cs ih =>
    cases hb : beforeLastSpace cs with
    | some p =>
      have hmem : ' ' ∈ cs := by
        by_contra hn
        rw [ih.2 hn] at hb
        cases hb
      simp [beforeLastSpace, hb, hmem]
    | none =>
      have hcs : ' ' ∉ cs := ih.1 hb
      by_cases hc : c = ' '
      · simp [beforeLastSpace, hb, hc]
      · simp [beforeLastSpace, hb, hc, hcs,
          (show ' ' ≠ c from fun h => hc h.symm)]

theorem beforeLastSpace_some (s p : List Char)
    (h : beforeLastSpace s = some p) :
    ∃ rest, s = p ++ ' ' :: rest ∧ ' ' ∉ rest := by
  induction s generalizing p with
  | nil => simp [beforeLastSpace] at h
  | cons c cs ih =>
    cases hb : beforeLastSpace cs with
    | some q =>
      simp only [beforeLastSpace, hb, Option.some.injEq] at h
      obtain ⟨rest, hcs, hnr⟩ := ih q hb
      exact ⟨rest, by simp [hcs, ← h], hnr⟩
    | none =>
      by_cases hc : c = ' '
      · simp only [beforeLastSpace, hb, hc, if_pos, Option.some.injEq] at h
        have hcs : ' ' ∉ cs := (beforeLastSpace_eq_none cs).1 hb
        exact ⟨cs, by simp [hc, ← h], hcs⟩
      · simp [beforeLastSpace, hb, hc] at h

/-! ### Helper lemmas about the chunk task -/

theorem getIndex_task_noreject (domain : List Obj) (n b : String) (rid : Nat)
    (ids : List Nat) (e : Engine) (recs : Records) :
    getIndex (index_chunk_task (fun _ => false) domain n b rid ids e recs).1 n =
      ((fetch domain ids).map to_document).foldl upsert (getIndex e n) := by
  simp [index_chunk_task, bulk_write, getIndex_setIndex]

theorem task_noreject_status (domain : List Obj) (n b : String) (rid : Nat)
    (ids : List Nat) (e : Engine) (recs : Records) (s0 : Status)
    (hrec : recordStatus recs rid = some s0) :
    recordStatus (index_chunk_task (fun _ => false) domain n b rid ids e recs).2 rid
      = some .success := by
  have key : (index_chunk_task (fun _ => false) domain n b rid ids e recs).2 =
      markRecord recs rid .success := by
    simp [index_chunk_task, bulk_write]
  rw [key]
  exact recordStatus_markRecord recs rid .success s0 hrec

theorem length_filter_add_length_filter_not (p : Nat → Bool) (l : List Nat) :
    (l.filter p).length + (l.filter (fun a => !(p a))).length = l.length := by
  induction l with
  | nil => rfl
  | cons a l ih =>
    cases hp : p a <;> simp [List.filter_cons, hp, ← ih] <;> omega

/-! ### Claim theorems -/

/-- Claim C2: for every non-empty ordered collection of item identifiers
and positive CHUNK_SIZE, the Chunker's chunks concatenate back to the
input in order, every chunk has size at most CHUNK_SIZE, and the number
of chunks is the ceiling of n / CHUNK_SIZE. -/
theorem chunker_partition (k : Nat) (xs : List Nat) (hk : 0 < k)
    (hne : xs ≠ []) :
    (chunked k xs).flatten = xs ∧ (∀ c ∈ chunked k xs, c.length ≤ k) ∧
      (chunked k xs).length = (xs.length + k - 1) / k :=
  ⟨chunked_flatten k hk xs, chunked_sizes k xs, chunked_count k hk xs⟩

/-- Witness for C2 at CHUNK_SIZE 3 and a 7-item input. -/
theorem chunker_partition_witness :
    (chunked 3 [10, 20, 30, 40, 50, 60, 70]).flatten =
        [10, 20, 30, 40, 50, 60, 70] ∧
      (chunked 3 [10, 20, 30, 40, 50, 60, 70]).length = 3 := by
  have h := chunker_partition 3 [10, 20, 30, 40, 50, 60, 70]
    (by decide) (by decide)
  exact ⟨h.1, h.2.2.trans (by decide)⟩

/-- Claim C3: for the empty collection of item identifiers the Chunker
produces zero chunks, whatever CHUNK_SIZE is. -/
theorem chunker_empty (k : Nat) : chunked k ([] : List Nat) = [] :=
  chunked_nil k

/-- Claim C8: `smart_truncate` returns the content unchanged when it fits
in the length bound; otherwise it returns the length-bounded prefix with
everything from its last space onward removed followed by the suffix, so
the result ends with the suffix, and a space-free prefix is kept whole. -/
theorem smart_truncate_spec (content : List Char) (len : Nat)
    (sfx : List Char) :
    (content.length ≤ len → smart_truncate content len sfx = content) ∧
      (len < content.length →
        (' ' ∉ content.take len →
            smart_truncate content len sfx = content.take len ++ sfx) ∧
          (' ' ∈ content.take len →
            ∃ pre rest, content.take len = pre ++ ' ' :: rest ∧ ' ' ∉ rest ∧
              smart_truncate content len sfx = pre ++ sfx) ∧
          sfx <:+ smart_truncate content len sfx) := by
  constructor
  · intro h
    simp [smart_truncate, h]
  · intro h
    have hgt : ¬content.length ≤ len := not_le.2 h
    have hform : smart_truncate content len sfx =
        rsplitSpaceFirst (content.take len) ++ sfx := by
      simp [smart_truncate, hgt]
    refine ⟨?_, ?_, ?_⟩
    · intro hns
      have hnone : beforeLastSpace (content.take len) = Option.none :=
        (beforeLastSpace_eq_none _).2 hns
      rw [hform, rsplitSpaceFirst, hnone]
      rfl
    · intro hs
      cases hbs : beforeLastSpace (content.take len) with
      | none => exact absurd ((beforeLastSpace_eq_none _).1 hbs) (by simp [hs])
      | some p =>
        obtain ⟨rest, hsplit, hnr⟩ := beforeLastSpace_some _ _ hbs
        refine ⟨p, rest, hsplit, hnr, ?_⟩
        rw [hform, rsplitSpaceFirst, hbs]
        rfl
    · rw [hform]
      exact List.suffix_append _ _

/-- Witness for C8 at the docstring examples of `smart_truncate`. -/
theorem smart_truncate_spec_witness :
    smart_truncate "abcde fghij".toList 100 "...".toList =
        "abcde fghij".toList ∧
      "...".toList <:+ smart_truncate "abcde fghij".toList 8 "...".toList :=
  ⟨(smart_truncate_spec "abcde fghij".toList 100 "...".toList).1 (by decide),
    ((smart_truncate_spec "abcde fghij".toList 8 "...".toList).2
      (by decide)).2.2⟩

/-- Claim C9: `smart_bool` never raises (it is total): it returns `True`
when the input is a string whose lowercasing is one of the recognised
true-strings, `False` when the lowercasing is one of the recognised
false-strings, and the fallback in every remaining case — in particular
for every non-string input, whose missing `lower` method makes the code
fall through to the fallback. -/
theorem smart_bool_spec (s fb : PyVal) :
    (∀ t, s = .str t → t.map asciiLower ∈ trueStrings →
        smart_bool s fb = .bool true) ∧
      (∀ t, s = .str t → t.map asciiLower ∈ falseStrings →
        smart_bool s fb = .bool false) ∧
      ((∀ t, s = .str t →
          t.map asciiLower ∉ trueStrings ∧ t.map asciiLower ∉ falseStrings) →
        smart_bool s fb = fb) := by
  refine ⟨?_, ?_, ?_⟩
  · rintro t rfl ht
    simp [smart_bool, ht]
  · rintro t rfl hf
    have hnt : t.map asciiLower ∉ trueStrings := by
      intro ht
      simp only [trueStrings, List.mem_cons, List.not_mem_nil, or_false] at ht
      rcases ht with h | h | h | h | h <;> rw [h] at hf <;> revert hf <;> decide
    simp [smart_bool, hnt, hf]
  · intro h
    cases s with
    | str t =>
      obtain ⟨h1, h2⟩ := h t rfl
      simp [smart_bool, h1, h2]
    | int n => rfl
    | float f => rfl
    | bool b => rfl
    | none => rfl

/-- Witness for C9: a true-string, an unrecognised string, and a
non-string input. -/
theorem smart_bool_spec_witness :
    smart_bool (.str "Yes".toList) (.int 7) = .bool true ∧
      smart_bool (.str "apple".toList) (.int 7) = .int 7 ∧
      smart_bool (.int 3) (.int 7) = .int 7 := by
  refine ⟨(smart_bool_spec (.str "Yes".toList) (.int 7)).1 _ rfl (by decide),
    (smart_bool_spec (.str "apple".toList) (.int 7)).2.2 ?_,
    (smart_bool_spec (.int 3) (.int 7)).2.2 ?_⟩
  · intro t ht
    cases ht
    exact ⟨by decide, by decide⟩
  · intro t ht
    cases ht

/-- Claim C10: `smart_int` never raises (it is total): when the input
converts to a finite double it returns that double truncated toward
zero, and whenever the conversion pipeline raises — non-numeric strings
and `None` make `float()` raise `ValueError`/`TypeError`, infinities
(including over-range literals such as `'1e400'`) make `int()` raise
`OverflowError`, and over-range ints make `float()` raise
`OverflowError` — it returns the fallback. -/
theorem smart_int_spec (s fb : PyVal) :
    (∀ m e, pyFloat s = some (.finite m e) →
        smart_int s fb = .int (truncDouble m e)) ∧
      ((∀ m e, pyFloat s ≠ some (.finite m e)) → smart_int s fb = fb) := by
  constructor
  · intro m e h
    simp [smart_int, h, truncFloat]
  · intro h
    cases hf : pyFloat s with
    | none => simp [smart_int, hf]
    | some f =>
      cases f with
      | finite m e => exact absurd hf (h m e)
      | inf => simp [smart_int, hf, truncFloat]
      | neginf => simp [smart_int, hf, truncFloat]
      | nan => simp [smart_int, hf, truncFloat]

set_option maxRecDepth 40000 in
/-- Witness for C10: the decimal string `"3.7"` parses to the double
`8331659310635418 * 2 ^ (-51)` (the binary64 nearest 3.7) and truncates
to 3, while a non-numeric string, `None`, an infinity and the over-range
literal `"1e400"` all yield the fallback. -/
theorem smart_int_spec_witness :
    smart_int (.str "3.7".toList) (.int 0) = .int 3 ∧
      smart_int (.str "abc".toList) (.int 5) = .int 5 ∧
      smart_int .none (.int 5) = .int 5 ∧
      smart_int (.str "inf".toList) (.int 5) = .int 5 ∧
      smart_int (.str "1e400".toList) (.int 5) = .int 5 := by
  refine ⟨((smart_int_spec (.str "3.7".toList) (.int 0)).1 8331659310635418
      (-51) (by decide)).trans (by decide),
    (smart_int_spec (.str "abc".toList) (.int 5)).2 ?_,
    (smart_int_spec .none (.int 5)).2 ?_,
    (smart_int_spec (.str "inf".toList) (.int 5)).2 ?_,
    (smart_int_spec (.str "1e400".toList) (.int 5)).2 ?_⟩
  · intro m e heq
    rw [show pyFloat (.str "abc".toList) = Option.none from by decide] at heq
    cases heq
  · intro m e heq
    cases heq
  · intro m e heq
    rw [show pyFloat (.str "inf".toList) = some PyFloat.inf from by decide] at heq
    simp at heq
  · intro m e heq
    rw [show pyFloat (.str "1e400".toList) = some PyFloat.inf from by
      decide] at heq
    simp at heq

/-- Claim C1 (spec-modelled pipeline): for every collection of 10 domain
objects with distinct ids and CHUNK_SIZE at least 10, the Chunker yields a
single chunk, and running the chunk task for batch `"b1"` against an empty
index leaves exactly 10 documents queryable and the chunk's record at
SUCCESS. -/
theorem index_chunk_task_end_to_end (domain : List Obj) (k rid : Nat)
    (hlen : domain.length = 10) (hnd : (domain.map Obj.id).Nodup)
    (hk : 10 ≤ k) :
    chunked k (domain.map Obj.id) = [domain.map Obj.id] ∧
      searchCount (index_chunk_task (fun _ => false) domain "idx" "b1" rid
        (domain.map Obj.id) ⟨[("idx", [])], []⟩ [(rid, .pending)]).1 "idx"
        = 10 ∧
      recordStatus (index_chunk_task (fun _ => false) domain "idx" "b1" rid
        (domain.map Obj.id) ⟨[("idx", [])], []⟩ [(rid, .pending)]).2 rid
        = some .success := by
  have hmlen : (domain.map Obj.id).length = 10 := by simp [hlen]
  have hne : domain.map Obj.id ≠ [] := by
    intro h
    rw [h] at hmlen
    cases hmlen
  refine ⟨?_, ?_, ?_⟩
  · exact chunked_of_length_le k _ (lt_of_lt_of_le (by norm_num) hk) hne
      (hmlen ▸ hk)
  · rw [searchCount, getIndex_task_noreject, fetch_all domain hnd]
    have hempty : getIndex ⟨[("idx", [])], []⟩ "idx" = ([] : Index) := by decide
    rw [hempty]
    have h1 : ((domain.map to_document).map Prod.fst).Nodup := by
      rw [keysOf_map_to_document]
      exact hnd
    have h2 : ∀ i ∈ (domain.map to_document).map Prod.fst,
        i ∉ keysOf ([] : Index) := fun i _ => by simp [keysOf]
    rw [length_eq_length_keysOf, keysOf_foldl_upsert_disjoint _ _ h1 h2]
    simp [keysOf, keysOf_map_to_document, hlen]
  · exact task_noreject_status domain "idx" "b1" rid (domain.map Obj.id)
      ⟨[("idx", [])], []⟩ [(rid, .pending)] .pending
      (by simp [recordStatus, List.find?_cons])

/-- Witness for C1 at a concrete 10-object domain with CHUNK_SIZE 16. -/
theorem index_chunk_task_end_to_end_witness :
    chunked 16 ([⟨1, "a"⟩, ⟨2, "b"⟩, ⟨3, "c"⟩, ⟨4, "d"⟩, ⟨5, "e"⟩, ⟨6, "f"⟩,
        ⟨7, "g"⟩, ⟨8, "h"⟩, ⟨9, "i"⟩, ⟨10, "j"⟩].map Obj.id) =
      [[⟨1, "a"⟩, ⟨2, "b"⟩, ⟨3, "c"⟩, ⟨4, "d"⟩, ⟨5, "e"⟩, ⟨6, "f"⟩,
        ⟨7, "g"⟩, ⟨8, "h"⟩, ⟨9, "i"⟩, ⟨10, "j"⟩].map Obj.id] ∧
      searchCount (index_chunk_task (fun _ => false)
        [⟨1, "a"⟩, ⟨2, "b"⟩, ⟨3, "c"⟩, ⟨4, "d"⟩, ⟨5, "e"⟩, ⟨6, "f"⟩,
          ⟨7, "g"⟩, ⟨8, "h"⟩, ⟨9, "i"⟩, ⟨10, "j"⟩] "idx" "b1" 7
        ([⟨1, "a"⟩, ⟨2, "b"⟩, ⟨3, "c"⟩, ⟨4, "d"⟩, ⟨5, "e"⟩, ⟨6, "f"⟩,
          ⟨7, "g"⟩, ⟨8, "h"⟩, ⟨9, "i"⟩, ⟨10, "j"⟩].map Obj.id)
        ⟨[("idx", [])], []⟩ [(7, .pending)]).1 "idx" = 10 ∧
      recordStatus (index_chunk_task (fun _ => false)
        [⟨1, "a"⟩, ⟨2, "b"⟩, ⟨3, "c"⟩, ⟨4, "d"⟩, ⟨5, "e"⟩, ⟨6, "f"⟩,
          ⟨7, "g"⟩, ⟨8, "h"⟩, ⟨9, "i"⟩, ⟨10, "j"⟩] "idx" "b1" 7
        ([⟨1, "a"⟩, ⟨2, "b"⟩, ⟨3, "c"⟩, ⟨4, "d"⟩, ⟨5, "e"⟩, ⟨6, "f"⟩,
          ⟨7, "g"⟩, ⟨8, "h"⟩, ⟨9, "i"⟩, ⟨10, "j"⟩].map Obj.id)
        ⟨[("idx", [])], []⟩ [(7, .pending)]).2 7 = some .success :=
  index_chunk_task_end_to_end
    [⟨1, "a"⟩, ⟨2, "b"⟩, ⟨3, "c"⟩, ⟨4, "d"⟩, ⟨5, "e"⟩, ⟨6, "f"⟩,
      ⟨7, "g"⟩, ⟨8, "h"⟩, ⟨9, "i"⟩, ⟨10, "j"⟩] 16 7
    (by decide) (by decide) (by decide)

/-- Claim C4 (spec-modelled pipeline): executing the same chunk task twice
(as under a task-queue retry) leaves the index holding exactly one
document per live item id — the stable object id keys the document, so the
second run overwrites instead of duplicating. -/
theorem chunk_task_idempotent (domain : List Obj) (indexName batchId : String)
    (rid : Nat) (ids : List Nat) (e : Engine) (recs : Records)
    (hnd : (keysOf (getIndex e indexName)).Nodup) :
    ∀ i ∈ ids, isLive domain i = true →
      countKey i (getIndex (index_chunk_task (fun _ => false) domain indexName
        batchId rid ids
        (index_chunk_task (fun _ => false) domain indexName batchId rid ids
          e recs).1
        (index_chunk_task (fun _ => false) domain indexName batchId rid ids
          e recs).2).1 indexName) = 1 := by
  intro i hi hlive
  rw [getIndex_task_noreject, getIndex_task_noreject]
  have hnd2 := nodup_keysOf_foldl_upsert ((fetch domain ids).map to_document) _
    (nodup_keysOf_foldl_upsert ((fetch domain ids).map to_document) _ hnd)
  have hmem : i ∈ ((fetch domain ids).map to_document).map Prod.fst := by
    rw [keysOf_map_to_document, fetch_map_id]
    exact List.mem_filter.2 ⟨hi, hlive⟩
  have hkey : i ∈ keysOf (((fetch domain ids).map to_document).foldl upsert
      (((fetch domain ids).map to_document).foldl upsert
        (getIndex e indexName))) :=
    (mem_keysOf_foldl_upsert _ _ _).2 (Or.inr hmem)
  exact List.count_eq_one_of_mem hnd2 hkey

/-- Witness for C4 at a concrete two-object chunk run twice from an empty
index. -/
theorem chunk_task_idempotent_witness :
    countKey 1 (getIndex (index_chunk_task (fun _ => false)
      [⟨1, "a"⟩, ⟨2, "b"⟩] "idx" "b1" 3 [1, 2]
      (index_chunk_task (fun _ => false) [⟨1, "a"⟩, ⟨2, "b"⟩] "idx" "b1" 3
        [1, 2] ⟨[("idx", [])], []⟩ [(3, .pending)]).1
      (index_chunk_task (fun _ => false) [⟨1, "a"⟩, ⟨2, "b"⟩] "idx" "b1" 3
        [1, 2] ⟨[("idx", [])], []⟩ [(3, .pending)]).2).1 "idx") = 1 :=
  chunk_task_idempotent [⟨1, "a"⟩, ⟨2, "b"⟩] "idx" "b1" 3 [1, 2]
    ⟨[("idx", [])], []⟩ [(3, .pending)] (by decide) 1 (by decide) (by decide)

/-- Claim C5 (spec-modelled pipeline): a chunk of 10 distinct item ids of
which exactly one no longer resolves to a live object indexes exactly 9
documents and still marks the record SUCCESS — a missing source object is
silently skipped, never a failure. -/
theorem chunk_task_missing_object (domain : List Obj) (ids : List Nat)
    (rid : Nat) (hnd : ids.Nodup) (hlen : ids.length = 10)
    (hmiss : (ids.filter (fun i => !(isLive domain i))).length = 1) :
    searchCount (index_chunk_task (fun _ => false) domain "idx" "b1" rid ids
        ⟨[("idx", [])], []⟩ [(rid, .pending)]).1 "idx" = 9 ∧
      recordStatus (index_chunk_task (fun _ => false) domain "idx" "b1" rid
        ids ⟨[("idx", [])], []⟩ [(rid, .pending)]).2 rid = some .success := by
  have hlive : (ids.filter (isLive domain)).length = 9 := by
    have h := length_filter_add_length_filter_not (isLive domain) ids
    omega
  constructor
  · rw [searchCount, getIndex_task_noreject]
    have hempty : getIndex ⟨[("idx", [])], []⟩ "idx" = ([] : Index) := by decide
    rw [hempty]
    have hkeys : ((fetch domain ids).map to_document).map Prod.fst =
        ids.filter (isLive domain) := by
      rw [keysOf_map_to_document, fetch_map_id]
    have h1 : (((fetch domain ids).map to_document).map Prod.fst).Nodup := by
      rw [hkeys]
      exact hnd.filter _
    have h2 : ∀ i ∈ ((fetch domain ids).map to_document).map Prod.fst,
        i ∉ keysOf ([] : Index) := fun i _ => by simp [keysOf]
    rw [length_eq_length_keysOf, keysOf_foldl_upsert_disjoint _ _ h1 h2]
    simp [keysOf, hkeys, hlive]
  · exact task_noreject_status domain "idx" "b1" rid ids ⟨[("idx", [])], []⟩
      [(rid, .pending)] .pending (by simp [recordStatus, List.find?_cons])

/-- Witness for C5: ids 1..10 with object 10 deleted from a 9-object
domain. -/
theorem chunk_task_missing_object_witness :
    searchCount (index_chunk_task (fun _ => false)
        [⟨1, "a"⟩, ⟨2, "b"⟩, ⟨3, "c"⟩, ⟨4, "d"⟩, ⟨5, "e"⟩, ⟨6, "f"⟩,
          ⟨7, "g"⟩, ⟨8, "h"⟩, ⟨9, "i"⟩] "idx" "b1" 4
        [1, 2, 3, 4, 5, 6, 7, 8, 9, 10] ⟨[("idx", [])], []⟩
        [(4, .pending)]).1 "idx" = 9 ∧
      recordStatus (index_chunk_task (fun _ => false)
        [⟨1, "a"⟩, ⟨2, "b"⟩, ⟨3, "c"⟩, ⟨4, "d"⟩, ⟨5, "e"⟩, ⟨6, "f"⟩,
          ⟨7, "g"⟩, ⟨8, "h"⟩, ⟨9, "i"⟩] "idx" "b1" 4
        [1, 2, 3, 4, 5, 6, 7, 8, 9, 10] ⟨[("idx", [])], []⟩
        [(4, .pending)]).2 4 = some .success :=
  chunk_task_missing_object
    [⟨1, "a"⟩, ⟨2, "b"⟩, ⟨3, "c"⟩, ⟨4, "d"⟩, ⟨5, "e"⟩, ⟨6, "f"⟩,
      ⟨7, "g"⟩, ⟨8, "h"⟩, ⟨9, "i"⟩] [1, 2, 3, 4, 5, 6, 7, 8, 9, 10] 4
    (by decide) (by decide) (by decide)

/-- Claim C6 (spec-modelled pipeline): when the bulk write reports at
least one rejected document, the whole chunk's record is marked FAILURE,
even if the other documents were written — no silent partial indexing
under a SUCCESS status. -/
theorem chunk_task_partial_failure (reject : DocT → Bool) (domain : List Obj)
    (indexName batchId : String) (rid : Nat) (ids : List Nat) (e : Engine)
    (recs : Records) (s0 : Status)
    (hrec : recordStatus recs rid = some s0)
    (hrej : ∃ d ∈ (fetch domain ids).map to_document, reject d.2 = true) :
    recordStatus (index_chunk_task reject domain indexName batchId rid ids
      e recs).2 rid = some .failure := by
  obtain ⟨d, hd, hr⟩ := hrej
  have hne : (((fetch domain ids).map to_document).filter
      (fun d => reject d.2)).length ≠ 0 := by
    intro h0
    rw [List.length_eq_zero] at h0
    have hmem : d ∈ ((fetch domain ids).map to_document).filter
        (fun d => reject d.2) := List.mem_filter.2 ⟨hd, hr⟩
    rw [h0] at hmem
    cases hmem
  have key : (index_chunk_task reject domain indexName batchId rid ids
      e recs).2 = markRecord recs rid .failure := by
    simp only [index_chunk_task, bulk_write]
    congr 1
    rw [if_neg]
    simpa using hne
  rw [key]
  exact recordStatus_markRecord recs rid .failure s0 hrec

/-- Witness for C6: the engine rejects the document whose body is
`"bad"`; the record of the two-document chunk ends FAILURE. -/
theorem chunk_task_partial_failure_witness :
    recordStatus (index_chunk_task (fun d => d.body == "bad")
      [⟨1, "ok"⟩, ⟨2, "bad"⟩] "idx" "b1" 5 [1, 2] ⟨[("idx", [])], []⟩
      [(5, .pending)]).2 5 = some .failure :=
  chunk_task_partial_failure (fun d => d.body == "bad")
    [⟨1, "ok"⟩, ⟨2, "bad"⟩] "idx" "b1" 5 [1, 2] ⟨[("idx", [])], []⟩
    [(5, .pending)] .pending (by decide)
    ⟨(2, ⟨2, "bad"⟩), by decide, by decide⟩

/-- Claim C7 (spec-modelled pipeline): a build-and-swap reindex that fails
during creation or population leaves the alias table untouched — the
alias still resolves to exactly the index it resolved to before. -/
theorem build_and_swap_alias_unchanged (e : Engine) (a ni : String)
    (r : BuildResult)
    (hfail : r = .createFailed ∨ ∃ p, r = .populateFailed p) :
    aliasFor (build_and_swap e a ni r) a = aliasFor e a ∧
      ∀ idx, aliasFor e a = some idx →
        aliasFor (build_and_swap e a ni r) a = some idx := by
  have h1 : aliasFor (build_and_swap e a ni r) a = aliasFor e a := by
    rcases hfail with rfl | ⟨p, rfl⟩
    · rfl
    · rfl
  exact ⟨h1, fun idx h => h1.trans h⟩

/-- Witness for C7: population fails while the alias points at the old
generation; the alias still resolves to it. -/
theorem build_and_swap_alias_unchanged_witness :
    aliasFor (build_and_swap
      ⟨[("idx_v1", [(1, ⟨1, "x"⟩)])], [("idx", "idx_v1")]⟩ "idx" "idx_v2"
      (.populateFailed [(1, ⟨1, "x"⟩)])) "idx" = some "idx_v1" :=
  (build_and_swap_alias_unchanged
    ⟨[("idx_v1", [(1, ⟨1, "x"⟩)])], [("idx", "idx_v1")]⟩ "idx" "idx_v2"
    (.populateFailed [(1, ⟨1, "x"⟩)]) (Or.inr ⟨_, rfl⟩)).2 "idx_v1"
    (by decide)

end Fjord
